import Mathlib

/-!
Verification of the interval-algebra engine (`Epoch`) of the NeuroPy
repository (`neuropy/core/epoch.py`) against its natural-language
specification.  Times are modelled as rationals, the rows of the
`_epochs` dataframe as a list of `(start, stop, label)` records kept in
the order the dataframe stores them.  `Epoch._validate` re-sorts the
rows by `start` on every construction, modelled with `List.insertionSort`.
-/

/-- One row of the `_epochs` dataframe: `{start, stop, label}`. -/
structure Iv where
  start : ℚ
  stop : ℚ
  label : String
deriving DecidableEq

/-- Ordering of rows by the `start` column, the key of
`epochs.sort_values(by=["start"])` in `Epoch._validate`. -/
def Iv.le (a b : Iv) : Prop := a.start ≤ b.start

instance : DecidableRel Iv.le := fun a b => inferInstanceAs (Decidable (a.start ≤ b.start))

instance : IsTrans Iv Iv.le := ⟨fun _ _ _ h h2 => le_trans h h2⟩

instance : IsTotal Iv Iv.le := ⟨fun a b => le_total a.start b.start⟩

/-- The `Epoch` object: it owns the `_epochs` dataframe. -/
structure Epoch where
  epochs : List Iv
deriving DecidableEq

/-- `Epoch._validate`: sorts the rows by `start` and stores a copy.
(The `label` column is also coerced to `str`; labels are already
strings in this model.) -/
def Epoch.validate (l : List Iv) : Epoch :=
  ⟨List.insertionSort Iv.le l⟩

/-- A `labels` argument of `Epoch.from_array`: `None`, a scalar string
(broadcast by pandas over every row), or a per-row list. -/
inductive NpLabels where
  | none
  | scalar (s : String)
  | list (ls : List String)

/-- The `label` column `pd.DataFrame({... "label": labels})` builds: a
scalar (including `None`) is broadcast over the rows; `_validate` then
applies `.astype("str")`, which renders Python `None` as the string
`"None"`. -/
def labelsColumn : NpLabels → ℕ → List String
  | .none, n => List.replicate n "None"
  | .scalar s, n => List.replicate n s
  | .list ls, _ => ls

/-- Rows of `pd.DataFrame({"start": starts, "stop": stops, "label": labels})`:
the three columns zipped together. -/
def mkIvs : List ℚ → List ℚ → List String → List Iv
  | a :: as, b :: bs, c :: cs => ⟨a, b, c⟩ :: mkIvs as bs cs
  | _, _, _ => []

/-- `Epoch.from_array(starts, stops, labels=None)`. -/
def Epoch.from_array (starts stops : List ℚ) (labels : NpLabels) : Epoch :=
  Epoch.validate (mkIvs starts stops (labelsColumn labels starts.length))

/-- `Epoch.starts` property: `self._epochs.start.values`. -/
def Epoch.starts (e : Epoch) : List ℚ := e.epochs.map (·.start)

/-- `Epoch.stops` property: `self._epochs.stop.values`. -/
def Epoch.stops (e : Epoch) : List ℚ := e.epochs.map (·.stop)

/-- `Epoch.durations` property: `self.stops - self.starts` (elementwise). -/
def Epoch.durations (e : Epoch) : List ℚ :=
  List.zipWith (fun a b => a - b) e.stops e.starts

/-- `Epoch.n_epochs` property: `len(self.starts)`. -/
def Epoch.n_epochs (e : Epoch) : ℕ := e.starts.length

/-- `Epoch.labels` property: `self._epochs.label.values`. -/
def Epoch.labels (e : Epoch) : List String := e.epochs.map (·.label)

/-- `Epoch.as_array`: starts and stops as a 2d array (one row per epoch). -/
def Epoch.as_array (e : Epoch) : List (ℚ × ℚ) := e.epochs.map fun iv => (iv.start, iv.stop)

/-- `Epoch.get_unique_labels`: `np.unique(self.labels)` (the distinct label
values; `np.unique` also sorts them, an ordering none of the claims
inspect). -/
def Epoch.get_unique_labels (e : Epoch) : List String := e.labels.dedup

/-- `Epoch.shift(dt)`: adds `dt` to the `start` and `stop` columns of a
copy and rebuilds the `Epoch`. -/
def Epoch.shift (e : Epoch) (dt : ℚ) : Epoch :=
  Epoch.validate (e.epochs.map fun iv => ⟨iv.start + dt, iv.stop + dt, iv.label⟩)

/-- `Epoch.is_overlapping` property:
`np.all((starts[1:] - stops[:-1]) < 0)` when there is more than one
epoch, else `False`. -/
def Epoch.is_overlapping (e : Epoch) : Bool :=
  if 1 < e.n_epochs then
    (List.zipWith (fun a b => a - b) e.starts.tail e.stops.dropLast).all
      fun x => decide (x < 0)
  else false

/-- Modelled from the spec: `DataWriter._time_slice_params` lives in
`neuropy/core/datawriter.py`, which is not among the sources.  Per the
spec, an omitted bound defaults to the set's own first start / last
stop, and that defaulting is undefined (an error, modelled as `none`)
on an empty set. -/
def Epoch.timeSliceParams (e : Epoch) (t_start t_stop : Option ℚ) : Option (ℚ × ℚ) := do
  let ts ← match t_start with
    | some v => some v
    | none => e.starts.head?
  let tf ← match t_stop with
    | some v => some v
    | none => e.stops.getLast?
  pure (ts, tf)

/-- `Epoch.time_slice(t_start, t_stop, strict)`.  Strict mode keeps the
rows with `start >= t_start` and `stop <= t_stop`; non-strict mode keeps
any overlapping row and clamps its boundaries to the window. -/
def Epoch.time_slice (e : Epoch) (t_start t_stop : Option ℚ) (strict : Bool) : Option Epoch := do
  let (ts, tf) ← e.timeSliceParams t_start t_stop
  if strict then
    pure (Epoch.validate (e.epochs.filter fun iv =>
      decide (ts ≤ iv.start) && decide (iv.stop ≤ tf)))
  else
    let kept := e.epochs.filter fun iv =>
      decide (iv.start ≤ tf) && decide (ts ≤ iv.stop)
    pure (Epoch.validate (kept.map fun iv =>
      { iv with
        start := if iv.start < ts then ts else iv.start
        stop := if tf < iv.stop then tf else iv.stop }))

/-- `Epoch.duration_slice(min_dur, max_dur)`: omitted bounds default to
`np.min(durations)` / `np.max(durations)`, which raise (here: `none`) on
an empty array; then keeps the rows whose duration lies in the bounds. -/
def Epoch.duration_slice (e : Epoch) (min_dur max_dur : Option ℚ) : Option Epoch := do
  let durations := e.durations
  let mn ← match min_dur with
    | some v => some v
    | none => durations.min?
  let mx ← match max_dur with
    | some v => some v
    | none => durations.max?
  pure (Epoch.validate (e.epochs.filter fun iv =>
    decide (mn ≤ iv.stop - iv.start) && decide (iv.stop - iv.start ≤ mx)))

/-- The body of `Epoch.merge`'s left-to-right pass, on the list of
`(start, stop)` rows still to be visited.  In the source, index `i` is
appended to `ind_delete` and row `i+1` is stretched to
`(min(starts[i], starts[i+1]), max(stops[i], stops[i+1]))` whenever
`starts[i+1] - stops[i] < dt`; `cur` carries the current value of row
`i` and the emitted rows are exactly the rows `np.delete` keeps. -/
def Epoch.mergeGo (dt : ℚ) (cur : ℚ × ℚ) : List (ℚ × ℚ) → List (ℚ × ℚ)
  | [] => [cur]
  | q :: rest =>
    if q.1 - cur.2 < dt then
      Epoch.mergeGo dt (min cur.1 q.1, max cur.2 q.2) rest
    else
      cur :: Epoch.mergeGo dt q rest

/-- The rows of `epochs_arr` surviving `Epoch.merge`'s pass. -/
def Epoch.mergeList (dt : ℚ) : List (ℚ × ℚ) → List (ℚ × ℚ)
  | [] => []
  | p :: ps => Epoch.mergeGo dt p ps

/-- `Epoch.merge(dt)`: runs the pass and rebuilds via
`Epoch.from_array(epochs_arr[:, 0], epochs_arr[:, 1])` — with no labels
argument. -/
def Epoch.merge (e : Epoch) (dt : ℚ) : Epoch :=
  let merged := Epoch.mergeList dt (e.epochs.map fun iv => (iv.start, iv.stop))
  Epoch.from_array (merged.map Prod.fst) (merged.map Prod.snd) .none

/-- One iteration `i` of `Epoch.merge`'s loop acting on the arrays
`starts, stops = self.starts, self.stops` themselves. -/
def Epoch.mergeStepArrays (dt : ℚ) (st : List ℚ × List ℚ) (i : ℕ) : List ℚ × List ℚ :=
  if st.1.getD (i + 1) 0 - st.2.getD i 0 < dt then
    (st.1.set (i + 1) (min (st.1.getD i 0) (st.1.getD (i + 1) 0)),
     st.2.set (i + 1) (max (st.2.getD i 0) (st.2.getD (i + 1) 0)))
  else st

/-- In the source, `starts, stops = self.starts, self.stops` inside
`Epoch.merge` are numpy views of the epoch's own dataframe columns, so
the loop's in-place writes land in the input epoch.  This computes the
final contents of those two arrays — that is, what `S.starts` and
`S.stops` hold after `S.merge(dt)` returns. -/
def Epoch.mergeArraysFinal (e : Epoch) (dt : ℚ) : List ℚ × List ℚ :=
  (List.range (e.n_epochs - 1)).foldl (Epoch.mergeStepArrays dt) (e.starts, e.stops)

/-- The gap-filling policy argument of `Epoch.fill_blank`. -/
inductive FillMethod where
  | from_left
  | from_right
  | from_nearest
deriving DecidableEq

/-- The `from_left` loop of `Epoch.fill_blank`: for each gap index
`ind`, `ep_durations[ind] = ep_starts[ind + 1] - ep_starts[ind]`
(the starts array is only read).  Returns the final durations array. -/
def fillLeftLoop : List ℕ → List ℚ → List ℚ → List ℚ
  | [], _, durs => durs
  | ind :: rest, starts, durs =>
    fillLeftLoop rest starts
      (durs.set ind (starts.getD (ind + 1) 0 - starts.getD ind 0))

/-- The `from_right` loop of `Epoch.fill_blank`: for each gap index
`ind`, the gap is recomputed from the current arrays and
`ep_starts[ind + 1] -= gap; ep_durations[ind + 1] += gap`. -/
def fillRightLoop : List ℕ → List ℚ → List ℚ → List ℚ × List ℚ
  | [], starts, durs => (starts, durs)
  | ind :: rest, starts, durs =>
    let gap := starts.getD (ind + 1) 0 - (starts.getD ind 0 + durs.getD ind 0)
    fillRightLoop rest
      (starts.set (ind + 1) (starts.getD (ind + 1) 0 - gap))
      (durs.set (ind + 1) (durs.getD (ind + 1) 0 + gap))

/-- The `from_nearest` loop of `Epoch.fill_blank`:
`ep_durations[ind] += gap / 2; ep_starts[ind + 1] -= gap / 2;
ep_durations[ind + 1] += gap / 2`, in that order. -/
def fillNearestLoop : List ℕ → List ℚ → List ℚ → List ℚ × List ℚ
  | [], starts, durs => (starts, durs)
  | ind :: rest, starts, durs =>
    let gap := starts.getD (ind + 1) 0 - (starts.getD ind 0 + durs.getD ind 0)
    let durs1 := durs.set ind (durs.getD ind 0 + gap / 2)
    let starts1 := starts.set (ind + 1) (starts.getD (ind + 1) 0 - gap / 2)
    let durs2 := durs1.set (ind + 1) (durs1.getD (ind + 1) 0 + gap / 2)
    fillNearestLoop rest starts1 durs2

/-- `Epoch.fill_blank(method)`: the gap indices are the `i` with
`ep_starts[i] + ep_durations[i] < ep_starts[i + 1]` (computed once, up
front), the chosen loop runs over them, and the result is rebuilt with
`from_array(starts=ep_starts, stops=ep_starts + ep_durations,
labels=ep_labels)` from the final arrays. -/
def Epoch.fill_blank (e : Epoch) (method : FillMethod) : Epoch :=
  let ep_starts := e.starts
  let ep_durations := e.durations
  let ep_labels := e.labels
  let inds := (List.range (e.n_epochs - 1)).filter fun i =>
    decide (ep_starts.getD i 0 + ep_durations.getD i 0 < ep_starts.getD (i + 1) 0)
  let sd : List ℚ × List ℚ :=
    match method with
    | .from_left => (ep_starts, fillLeftLoop inds ep_starts ep_durations)
    | .from_right => fillRightLoop inds ep_starts ep_durations
    | .from_nearest => fillNearestLoop inds ep_starts ep_durations
  Epoch.from_array sd.1 (List.zipWith (fun a b => a + b) sd.1 sd.2) (.list ep_labels)

/-- `Epoch.from_boolean_array(arr, t)`: pads the 0/1 signal with one 0
on each side, takes `np.diff`, reads run starts at `diff == 1` and run
stops at `diff == -1`, clamps a stop equal to `len(arr)` down to
`len(arr) - 1`, optionally maps the indices through `t`, and labels
every produced interval `"high"`. -/
def Epoch.from_boolean_array (arr : List Bool) (t : Option (List ℚ)) : Epoch :=
  let int_arr : List ℤ := arr.map fun b => if b then 1 else 0
  let pad_arr : List ℤ := [0] ++ int_arr ++ [0]
  let diff_arr : List ℤ := List.zipWith (fun a b => b - a) pad_arr pad_arr.tail
  let starts : List ℕ := (List.range diff_arr.length).filter fun i =>
    decide (diff_arr.getD i 0 = 1)
  let stops : List ℕ := (List.range diff_arr.length).filter fun i =>
    decide (diff_arr.getD i 0 = -1)
  let stops : List ℕ := stops.map fun s => if s = arr.length then arr.length - 1 else s
  match t with
  | some tl =>
    Epoch.from_array (starts.map fun i => tl.getD i 0) (stops.map fun i => tl.getD i 0)
      (.scalar "high")
  | none =>
    Epoch.from_array (starts.map fun i : ℕ => (i : ℚ)) (stops.map fun i : ℕ => (i : ℚ))
      (.scalar "high")

/-- `Epoch.get_indices_for_time(t)`: starts from an all-zero mask and,
for each `e` in `self.epochs.as_array()`, sets the positions with
`(t >= e[0]) & (t <= e[1])` to one; the mask is returned as booleans.
(`self.epochs` — the epoch's interval table — resolves through the
`DataWriter` base class, which is not among the sources; per the spec
it is the epoch's own record collection.) -/
def Epoch.get_indices_for_time (e : Epoch) (t : List ℚ) : List Bool :=
  e.as_array.foldl
    (fun time_bool p =>
      List.zipWith (fun b x => if p.1 ≤ x ∧ x ≤ p.2 then true else b) time_bool t)
    (t.map fun _ => false)

/-- The first-row clamp of `Epoch.proportion_by_label`:
`if ep["start"].iloc[0] < t_start: ep.at[0, "start"] = t_start`. -/
def clampFirst (ts : ℚ) : List Iv → List Iv
  | [] => []
  | iv :: rest => (if iv.start < ts then { iv with start := ts } else iv) :: rest

/-- The last-row clamp of `Epoch.proportion_by_label`:
`if ep["stop"].iloc[-1] > t_stop: ep.at[ep.index[-1], "stop"] = t_stop`. -/
def clampLast (tf : ℚ) (l : List Iv) : List Iv :=
  match l.getLast? with
  | none => l
  | some iv => l.dropLast ++ [if tf < iv.stop then { iv with stop := tf } else iv]

/-- `Epoch.proportion_by_label(t_start, t_stop)`: omitted bounds default
to `self.starts[0]` / `self.stops[-1]`, which raise (here: `none`) on an
empty set; rows overlapping the window are kept, the first and last are
clamped (`ep["start"].iloc[0]` raises when no row overlaps the window),
and each distinct label gets its summed clamped duration divided by the
window length, defaulting to `0`. -/
def Epoch.proportion_by_label (e : Epoch) (t_start t_stop : Option ℚ) :
    Option (List (String × ℚ)) := do
  let ts ← match t_start with
    | some v => some v
    | none => e.starts.head?
  let tf ← match t_stop with
    | some v => some v
    | none => e.stops.getLast?
  let duration := tf - ts
  let ep := e.epochs.filter fun iv => decide (ts < iv.stop) && decide (iv.start < tf)
  if ep.isEmpty then none
  else
    let ep := clampLast tf (clampFirst ts ep)
    pure (e.get_unique_labels.map fun lab =>
      (lab,
        (ep.filter fun iv => iv.label == lab).foldl
          (fun a iv => a + (iv.stop - iv.start)) 0 / duration))

/-- A candidate epoch of `Epoch.from_peaks` after peak detection: its
provisional span `left_base .. right_base`, the peak position, and the
peak height `arr_thresh[peak]`. -/
structure PeakIv where
  start : ℚ
  stop : ℚ
  peak : ℚ
  value : ℚ
deriving DecidableEq

/-- `np.argmax` on a two-element array: the index of the first
occurrence of the maximum (so index `0` on ties). -/
def np_argmax2 (a b : ℚ) : ℕ := if a < b then 1 else 0

/-- The body of the "merge overlapping epochs" step of
`Epoch.from_peaks` when row `i` is merged into row `i + 1`:
`starts[i+1] = min(...)`, `stops[i+1] = max(...)`,
`peaks_values[i+1] = max(peaks_values[i], peaks_values[i+1])` and then
`peaks[i+1] = [peaks[i], peaks[i+1]][np.argmax([peaks_values[i],
peaks_values[i+1]])]` — note the second `argmax` argument reads the
already-updated `peaks_values[i+1]`. -/
def Epoch.fromPeaksMergePair (cur q : PeakIv) : PeakIv :=
  let v := max cur.value q.value
  let p := [cur.peak, q.peak].getD (np_argmax2 cur.value v) 0
  { start := min cur.start q.start, stop := max cur.stop q.stop, peak := p, value := v }

/-- The left-to-right merge pass of `Epoch.from_peaks` over the
candidate rows still to be visited, merging whenever
`starts[i + 1] - stops[i] < sep` (with `sep` already converted to
sample units and offset by the `1e-6` epsilon, as in the source). -/
def Epoch.fromPeaksMergeGo (sep : ℚ) (cur : PeakIv) : List PeakIv → List PeakIv
  | [] => [cur]
  | q :: rest =>
    if q.start - cur.stop < sep then
      Epoch.fromPeaksMergeGo sep (Epoch.fromPeaksMergePair cur q) rest
    else
      cur :: Epoch.fromPeaksMergeGo sep q rest

/-- Claim C1 (code bug, evidence): in `Epoch.merge`, the local arrays
`starts, stops` are numpy views of the input's own dataframe, so the
pass's writes mutate the input.  For `S` with intervals `(0,5)` and
`(6,8)`, after `S.merge(2)` the arrays aliased by `S.starts`/`S.stops`
hold `[0, 0]` and `[5, 8]`, while `S.starts` was `[0, 6]` before the
call — contradicting the claim that no operation alters `S.starts`. -/
theorem C1_merge_mutates_input :
    (Epoch.from_array [0, 6] [5, 8] .none).mergeArraysFinal 2 = ([0, 0], [5, 8])
    ∧ (Epoch.from_array [0, 6] [5, 8] .none).starts = [0, 6] := by
  constructor <;>
    norm_num [Epoch.from_array, Epoch.validate, Epoch.mergeArraysFinal, Epoch.mergeStepArrays,
      Epoch.starts, Epoch.stops, Epoch.n_epochs, mkIvs, labelsColumn,
      List.insertionSort, List.orderedInsert, Iv.le, List.range_succ, List.foldl, List.set]

/-- Claim C2 (code bug, evidence): `is_overlapping` computes
`np.all((starts[1:] - stops[:-1]) < 0)`, so it returns `False` on the
sorted set `[(0,5), (3,8), (10,12)]` even though the second interval's
start `3` occurs before the previous interval's stop `5` — the claim
(some pair overlapping implies `True`) requires `np.any`. -/
theorem C2_all_vs_any :
    (Epoch.from_array [0, 3, 10] [5, 8, 12] .none).is_overlapping = false
    ∧ (Epoch.from_array [0, 3, 10] [5, 8, 12] .none).starts.getD 1 0
        < (Epoch.from_array [0, 3, 10] [5, 8, 12] .none).stops.getD 0 0 := by
  constructor <;>
    norm_num [Epoch.from_array, Epoch.validate, Epoch.is_overlapping, Epoch.starts, Epoch.stops,
      Epoch.n_epochs, mkIvs, labelsColumn, List.insertionSort, List.orderedInsert, Iv.le,
      List.all, List.dropLast]

/-- Claim C3 (counterexample): `from_boolean_array([F,T,T,F,T],
t=[0,1,2,3,4])` does not yield `(1,2,"high")` and `(4,4,"high")`: the
stop of the first run is the time of the first `False` after it,
`t[3] = 3`, not `t[2] = 2`. -/
theorem C3_counterexample :
    (Epoch.from_boolean_array [false, true, true, false, true]
        (some [0, 1, 2, 3, 4])).epochs
      ≠ [⟨1, 2, "high"⟩, ⟨4, 4, "high"⟩] := by
  decide

/-- Claim C4 (counterexample): `time_slice(5, 10, strict=True)` on
`[(1,3),(4,6),(7,9),(11,13)]` does not return `(4,6)` and `(7,9)`:
interval `(4,6)` starts before `t_start = 5`, so strict mode drops it. -/
theorem C4_counterexample :
    ((Epoch.from_array [1, 4, 7, 11] [3, 6, 9, 13] .none).time_slice
        (some 5) (some 10) true).map Epoch.as_array
      ≠ some [(4, 6), (7, 9)] := by
  decide

/-- Claim C4 (amended): `time_slice(5, 10, strict=True)` on
`[(1,3),(4,6),(7,9),(11,13)]` returns only `(7,9)` — the only interval
with `start ≥ 5` and `stop ≤ 10`. -/
theorem C4_strict_slice :
    ((Epoch.from_array [1, 4, 7, 11] [3, 6, 9, 13] .none).time_slice
        (some 5) (some 10) true).map Epoch.as_array
      = some [(7, 9)] := by
  decide

/-- Claim C5 (counterexample): on the overlapping set
`[(0,10),(1,2),(5,6)]` (every interval proper, sorted by start),
`fill_blank("from_left")` leaves `stop[0] = 10 ≠ 1 = start[1]`: the
claim's gap-closure property fails for sets that are merely "any
IntervalSet with at least 2 intervals". -/
theorem C5_counterexample :
    ¬ List.Chain' (fun a b => a.stop = b.start)
        ((Epoch.from_array [0, 1, 5] [10, 2, 6] .none).fill_blank .from_left).epochs := by
  norm_num [Epoch.from_array, Epoch.validate, Epoch.fill_blank, Epoch.starts, Epoch.stops,
    Epoch.durations, Epoch.labels, Epoch.n_epochs, mkIvs, labelsColumn,
    List.insertionSort, List.orderedInsert, Iv.le, List.range_succ,
    fillLeftLoop, List.set, List.zipWith]

/-- Claim C7 (counterexample): on an empty set, `duration_slice()` with
omitted bounds raises (`np.min` of a zero-size array has no identity)
and `proportion_by_label()` with omitted bounds raises
(`self.starts[0]` on an empty array) — both modelled as `none`,
contradicting the claim that they do not raise. -/
theorem C7_counterexample :
    (Epoch.mk []).duration_slice none none = none
    ∧ (Epoch.mk []).proportion_by_label none none = none := by
  constructor <;> rfl

/-- Claim C7 (amended): operations on an empty set that do not reduce
over its values — `merge`, `shift`, `time_slice` with explicit bounds,
`fill_blank` — return an empty result without raising, but
`duration_slice` and `proportion_by_label` with omitted bounds do
raise (model: `none`) on an empty set. -/
theorem C7_empty_sets :
    (∀ dt : ℚ, (Epoch.mk []).merge dt = Epoch.mk [])
    ∧ (∀ dt : ℚ, (Epoch.mk []).shift dt = Epoch.mk [])
    ∧ (∀ a b : ℚ, ∀ strict : Bool,
        (Epoch.mk []).time_slice (some a) (some b) strict = some (Epoch.mk []))
    ∧ (∀ m : FillMethod, (Epoch.mk []).fill_blank m = Epoch.mk [])
    ∧ (Epoch.mk []).duration_slice none none = none
    ∧ (Epoch.mk []).proportion_by_label none none = none := by
  refine ⟨fun dt => rfl, fun dt => rfl, fun a b strict => ?_, fun m => ?_, rfl, rfl⟩
  · cases strict <;> rfl
  · cases m <;> rfl

/-- Claim C8 (confirmed): in the merge pass of `from_peaks`, when two
candidates merge because their gap is below the separation threshold,
the retained peak value is the larger of the two heights, and the
merged row keeps the position of the higher peak — with a tie on equal
heights resolved in favor of the earlier peak (`np.argmax` returns the
first index of the maximum). -/
theorem C8_peak_merge_tiebreak (sep : ℚ) (cur q : PeakIv) (rest : List PeakIv)
    (h : q.start - cur.stop < sep) :
    Epoch.fromPeaksMergeGo sep cur (q :: rest)
      = Epoch.fromPeaksMergeGo sep (Epoch.fromPeaksMergePair cur q) rest
    ∧ (Epoch.fromPeaksMergePair cur q).value = max cur.value q.value
    ∧ (q.value ≤ cur.value → (Epoch.fromPeaksMergePair cur q).peak = cur.peak)
    ∧ (cur.value < q.value → (Epoch.fromPeaksMergePair cur q).peak = q.peak) := by
  refine ⟨by simp [Epoch.fromPeaksMergeGo, h], rfl, ?_, ?_⟩
  · intro hle
    simp [Epoch.fromPeaksMergePair, np_argmax2, max_eq_left hle]
  · intro hlt
    simp [Epoch.fromPeaksMergePair, np_argmax2, max_eq_right (le_of_lt hlt), hlt]

/-- Claim C8 (witness): two equal-height candidates at gap `0 < 1`
merge into a row keeping the earlier peak's position. -/
theorem C8_witness :
    Epoch.fromPeaksMergeGo 1 ⟨0, 1, 0, 5⟩ [⟨1, 2, 1, 5⟩]
      = Epoch.fromPeaksMergeGo 1 (Epoch.fromPeaksMergePair ⟨0, 1, 0, 5⟩ ⟨1, 2, 1, 5⟩) []
    ∧ (Epoch.fromPeaksMergePair ⟨0, 1, 0, 5⟩ ⟨1, 2, 1, 5⟩).value = max 5 5
    ∧ ((5 : ℚ) ≤ 5 → (Epoch.fromPeaksMergePair ⟨0, 1, 0, 5⟩ ⟨1, 2, 1, 5⟩).peak = 0)
    ∧ ((5 : ℚ) < 5 → (Epoch.fromPeaksMergePair ⟨0, 1, 0, 5⟩ ⟨1, 2, 1, 5⟩).peak = 1) :=
  C8_peak_merge_tiebreak 1 ⟨0, 1, 0, 5⟩ ⟨1, 2, 1, 5⟩ [] (by norm_num)

/-! Generic list helpers used by the proofs below. -/

theorem getD_set_self {α : Type} (l : List α) (i : ℕ) (v d : α) (h : i < l.length) :
    (l.set i v).getD i d = v := by
  simp [List.getD_eq_getElem?_getD, List.getElem?_set_eq_of_lt, h]

theorem getD_set_ne {α : Type} (l : List α) {i j : ℕ} (v d : α) (h : i ≠ j) :
    (l.set i v).getD j d = l.getD j d := by
  simp [List.getD_eq_getElem?_getD, List.getElem?_set_ne h]

theorem getD_map_lt {α β : Type} (f : α → β) (l : List α) (i : ℕ) (d : α) (db : β)
    (h : i < l.length) : (l.map f).getD i db = f (l.getD i d) := by
  simp [List.getD_eq_getElem?_getD, List.getElem?_eq_getElem, h,
    List.getElem?_eq_getElem (l := l.map f) (by simpa using h)]

theorem getD_zipWith {α : Type} (f : α → α → α) :
    ∀ (a b : List α) (i : ℕ) (d : α), i < a.length → i < b.length →
      (List.zipWith f a b).getD i d = f (a.getD i d) (b.getD i d)
  | _ :: _, _ :: _, 0, _, _, _ => rfl
  | x :: a, y :: b, i + 1, d, ha, hb => by
    simpa using getD_zipWith f a b i d (by simpa using ha) (by simpa using hb)

theorem get_eq_getD {α : Type} (l : List α) (i : ℕ) (h : i < l.length) (d : α) :
    l.get ⟨i, h⟩ = l.getD i d := by
  simp [List.getD_eq_getElem?_getD, List.getElem?_eq_getElem h]

theorem getD_mem {α : Type} (l : List α) (i : ℕ) (d : α) (h : i < l.length) :
    l.getD i d ∈ l := by
  rw [List.getD_eq_getElem?_getD, List.getElem?_eq_getElem h]
  exact List.getElem_mem h

theorem head?_eq_getD {α : Type} (l : List α) (d : α) (h : 0 < l.length) :
    l.head? = some (l.getD 0 d) := by
  cases l with
  | nil => simp at h
  | cons x xs => rfl

theorem mkIvs_length : ∀ (a b : List ℚ) (c : List String),
    (mkIvs a b c).length = min a.length (min b.length c.length)
  | [], _, _ => by simp [mkIvs]
  | _ :: _, [], _ => by simp [mkIvs]
  | _ :: _, _ :: _, [] => by simp [mkIvs]
  | _ :: a, _ :: b, _ :: c => by
    simp [mkIvs, mkIvs_length a b c]
    omega

theorem mkIvs_getD : ∀ (a b : List ℚ) (c : List String) (k : ℕ),
    k < a.length → k < b.length → k < c.length →
    (mkIvs a b c).getD k ⟨0, 0, ""⟩ = ⟨a.getD k 0, b.getD k 0, c.getD k ""⟩
  | _ :: _, _ :: _, _ :: _, 0, _, _, _ => rfl
  | _ :: a, _ :: b, _ :: c, k + 1, ha, hb, hc => by
    simpa [mkIvs] using
      mkIvs_getD a b c k (by simpa using ha) (by simpa using hb) (by simpa using hc)

theorem mem_mkIvs_stop : ∀ {a b : List ℚ} {c : List String} {iv : Iv},
    iv ∈ mkIvs a b c → iv.stop ∈ b
  | x :: a, y :: b, z :: c, iv, h => by
    rcases List.mem_cons.mp h with h | h
    · subst h; exact List.mem_cons_self y b
    · exact List.mem_cons_of_mem y (mem_mkIvs_stop h)

theorem foldl_min_of_le : ∀ (l : List ℚ) (x : ℚ), (∀ y ∈ l, x ≤ y) → l.foldl min x = x
  | [], _, _ => rfl
  | y :: l, x, h => by
    have hx : min x y = x := min_eq_left (h y (List.mem_cons_self y l))
    rw [List.foldl_cons, hx]
    exact foldl_min_of_le l x fun z hz => h z (List.mem_cons_of_mem y hz)

theorem min?_eq_head_of_sorted (x : ℚ) (l : List ℚ)
    (h : List.Pairwise (· ≤ ·) (x :: l)) : (x :: l).min? = some x := by
  have : l.foldl min x = x := foldl_min_of_le l x fun y hy => (List.pairwise_cons.mp h).1 y hy
  simp [List.min?, this]

theorem foldl_max_eq (M : ℚ) : ∀ (l : List ℚ) (acc : ℚ), (acc = M ∨ M ∈ l) → acc ≤ M →
    (∀ y ∈ l, y ≤ M) → l.foldl max acc = M
  | [], acc, hm, hacc, _ => by
    rcases hm with h | h
    · exact h
    · simp at h
  | y :: l, acc, hm, hacc, hub => by
    rw [List.foldl_cons]
    have hyM : y ≤ M := hub y (List.mem_cons_self y l)
    have hub' : ∀ z ∈ l, z ≤ M := fun z hz => hub z (List.mem_cons_of_mem y hz)
    rcases hm with h | h
    · have h1 : max acc y = M := by rw [h]; exact max_eq_left (h ▸ hyM)
      exact foldl_max_eq M l _ (Or.inl h1) (le_of_eq h1) hub'
    · rcases List.mem_cons.mp h with h | h
      · have h1 : max acc y = M := by rw [h]; exact max_eq_right (h ▸ hacc)
        exact foldl_max_eq M l _ (Or.inl h1) (le_of_eq h1) hub'
      · exact foldl_max_eq M l _ (Or.inr h) (max_le hacc hyM) hub'

theorem max?_eq_of_mem_ub (l : List ℚ) (M : ℚ) (hm : M ∈ l) (hub : ∀ y ∈ l, y ≤ M) :
    l.max? = some M := by
  cases l with
  | nil => simp at hm
  | cons x xs =>
    have : xs.foldl max x = M := by
      rcases List.mem_cons.mp hm with h | h
      · exact foldl_max_eq M xs x (Or.inl h.symm) (le_of_eq h.symm)
          fun y hy => hub y (List.mem_cons_of_mem x hy)
      · exact foldl_max_eq M xs x (Or.inr h) (hub x (List.mem_cons_self x xs))
          fun y hy => hub y (List.mem_cons_of_mem x hy)
    simp [List.max?, this]

theorem le_of_adjacent_steps (f : ℕ → ℚ) :
    ∀ (m k : ℕ), (∀ j, k ≤ j → j < k + m → f j ≤ f (j + 1)) → f k ≤ f (k + m)
  | 0, k, _ => le_refl _
  | m + 1, k, h => by
    have h1 : f k ≤ f (k + 1) := h k (le_refl k) (by omega)
    have h2 : f (k + 1) ≤ f (k + 1 + m) :=
      le_of_adjacent_steps f m (k + 1) fun j hj hj2 => h j (by omega) (by omega)
    have : k + 1 + m = k + (m + 1) := by omega
    rw [this] at h2
    exact le_trans h1 h2

/-! Helpers for `get_indices_for_time`. -/

theorem zipWith_mask_map (p : ℚ × ℚ) (f : ℚ → Bool) :
    ∀ t : List ℚ,
      List.zipWith (fun b x => if p.1 ≤ x ∧ x ≤ p.2 then true else b) (t.map f) t
        = t.map fun x => if p.1 ≤ x ∧ x ≤ p.2 then true else f x
  | [] => rfl
  | x :: t => by
    simp only [List.map_cons, List.zipWith_cons_cons, zipWith_mask_map p f t]

theorem maskFold_eq :
    ∀ (ps : List (ℚ × ℚ)) (t : List ℚ) (f : ℚ → Bool),
      ps.foldl
          (fun time_bool p =>
            List.zipWith (fun b x => if p.1 ≤ x ∧ x ≤ p.2 then true else b) time_bool t)
          (t.map f)
        = t.map fun x => f x || ps.any fun p => decide (p.1 ≤ x ∧ x ≤ p.2)
  | [], t, f => by simp
  | p :: ps, t, f => by
    rw [List.foldl_cons, zipWith_mask_map, maskFold_eq ps t _]
    congr 1
    funext x
    by_cases h : p.1 ≤ x ∧ x ≤ p.2
    · rw [if_pos h, List.any_cons, decide_eq_true h]
      simp
    · rw [if_neg h, List.any_cons, decide_eq_false h]
      simp

/-- Claim C9 (confirmed): `get_indices_for_time(t)` returns the boolean
mask over `t` marking the query times that fall within `[start, stop]`
of some interval, with inclusive bounds at both ends. -/
theorem C9_get_indices_spec (e : Epoch) (t : List ℚ) :
    e.get_indices_for_time t
      = t.map fun x => decide (∃ iv ∈ e.epochs, iv.start ≤ x ∧ x ≤ iv.stop) := by
  unfold Epoch.get_indices_for_time
  rw [maskFold_eq]
  congr 1
  funext x
  simp only [Bool.false_or, Epoch.as_array, List.any_map]
  rw [Bool.eq_iff_iff]
  simp [List.any_eq_true, Function.comp]

/-! Helpers for `Epoch.merge`. -/

theorem mergeGo_ne_nil (dt : ℚ) :
    ∀ (l : List (ℚ × ℚ)) (cur : ℚ × ℚ), Epoch.mergeGo dt cur l ≠ []
  | [], cur => by simp [Epoch.mergeGo]
  | q :: rest, cur => by
    unfold Epoch.mergeGo
    split
    · exact mergeGo_ne_nil dt rest _
    · simp

theorem chain_start_merge (cur q : ℚ × ℚ) (rest : List (ℚ × ℚ))
    (h : List.Chain' (fun p q : ℚ × ℚ => p.1 ≤ q.1) (cur :: q :: rest)) :
    List.Chain' (fun p q : ℚ × ℚ => p.1 ≤ q.1) ((min cur.1 q.1, max cur.2 q.2) :: rest) := by
  have htail := (List.chain'_cons.mp h).2
  apply List.chain'_cons'.mpr
  refine ⟨fun b hb => ?_, (List.chain'_cons'.mp htail).2⟩
  exact le_trans (min_le_right _ _) ((List.chain'_cons'.mp htail).1 b hb)

theorem mergeGo_head_start (dt : ℚ) :
    ∀ (l : List (ℚ × ℚ)) (cur : ℚ × ℚ),
      List.Chain' (fun p q : ℚ × ℚ => p.1 ≤ q.1) (cur :: l) →
      (Epoch.mergeGo dt cur l).head?.map Prod.fst = some cur.1
  | [], cur, _ => rfl
  | q :: rest, cur, h => by
    have hcq : cur.1 ≤ q.1 := (List.chain'_cons.mp h).1
    unfold Epoch.mergeGo
    split
    · rw [mergeGo_head_start dt rest _ (chain_start_merge cur q rest h)]
      simp [min_eq_left hcq]
    · rfl

theorem mergeGo_chains (dt : ℚ) :
    ∀ (l : List (ℚ × ℚ)) (cur : ℚ × ℚ),
      List.Chain' (fun p q : ℚ × ℚ => p.1 ≤ q.1) (cur :: l) →
      List.Chain' (fun p q : ℚ × ℚ => dt ≤ q.1 - p.2) (Epoch.mergeGo dt cur l)
      ∧ List.Chain' (fun p q : ℚ × ℚ => p.1 ≤ q.1) (Epoch.mergeGo dt cur l)
  | [], cur, _ => ⟨List.chain'_singleton _, List.chain'_singleton _⟩
  | q :: rest, cur, h => by
    have hcq : cur.1 ≤ q.1 := (List.chain'_cons.mp h).1
    have htail := (List.chain'_cons.mp h).2
    unfold Epoch.mergeGo
    split
    case isTrue hlt =>
      exact mergeGo_chains dt rest _ (chain_start_merge cur q rest h)
    case isFalse hge =>
      have hx := mergeGo_chains dt rest q htail
      have hh := mergeGo_head_start dt rest q htail
      have hhead : ∀ b ∈ (Epoch.mergeGo dt q rest).head?, b.1 = q.1 := by
        intro b hb
        rw [hb] at hh
        exact Option.some_injective _ hh
      constructor
      · apply List.chain'_cons'.mpr
        refine ⟨fun b hb => ?_, hx.1⟩
        rw [hhead b hb]
        exact not_lt.mp hge
      · apply List.chain'_cons'.mpr
        refine ⟨fun b hb => ?_, hx.2⟩
        rw [hhead b hb]
        exact hcq

theorem mergeGo_no_merge (dt : ℚ) :
    ∀ (l : List (ℚ × ℚ)) (cur : ℚ × ℚ),
      List.Chain' (fun p q : ℚ × ℚ => dt ≤ q.1 - p.2) (cur :: l) →
      Epoch.mergeGo dt cur l = cur :: l
  | [], cur, _ => rfl
  | q :: rest, cur, h => by
    unfold Epoch.mergeGo
    rw [if_neg (not_lt.mpr (List.chain'_cons.mp h).1),
      mergeGo_no_merge dt rest q (List.chain'_cons.mp h).2]

theorem mkIvs_map_pairs (s : String) :
    ∀ l : List (ℚ × ℚ),
      mkIvs (l.map Prod.fst) (l.map Prod.snd)
          (List.replicate (l.map Prod.fst).length s)
        = l.map fun q => ⟨q.1, q.2, s⟩
  | [] => rfl
  | q :: l => by
    simp only [List.map_cons, List.length_cons, List.replicate_succ, mkIvs]
    rw [mkIvs_map_pairs s l]

theorem merge_eq (e : Epoch) (dt : ℚ) :
    e.merge dt
      = Epoch.validate
          ((Epoch.mergeList dt (e.epochs.map fun iv => (iv.start, iv.stop))).map
            fun q => ⟨q.1, q.2, "None"⟩) := by
  unfold Epoch.merge Epoch.from_array
  exact congrArg Epoch.validate (mkIvs_map_pairs "None" _)

/-- Claim C6 (confirmed): `merge` is idempotent.  The `Epoch`
constructor keeps the rows sorted by `start`, stated here as the
`Pairwise` hypothesis; after one pass every gap between surviving rows
is at least `dt`, so a second pass merges nothing. -/
theorem C6_merge_idempotent (e : Epoch) (dt : ℚ) (h : List.Pairwise Iv.le e.epochs) :
    (e.merge dt).merge dt = e.merge dt := by
  have hchain : List.Chain' (fun p q : ℚ × ℚ => p.1 ≤ q.1)
      (e.epochs.map fun iv => (iv.start, iv.stop)) := by
    apply (List.chain'_map _).mpr
    show List.Chain' Iv.le e.epochs
    exact List.chain'_iff_pairwise.mpr h
  cases hpc : e.epochs.map fun iv => (iv.start, iv.stop) with
  | nil =>
    have h0 : e.merge dt = Epoch.mk [] := by
      rw [merge_eq, hpc]
      rfl
    rw [h0]
    rfl
  | cons p ps =>
    rw [hpc] at hchain
    obtain ⟨hgaps, hsorted⟩ := mergeGo_chains dt ps p hchain
    have hmerged : Epoch.mergeList dt (e.epochs.map fun iv => (iv.start, iv.stop))
        = Epoch.mergeGo dt p ps := by rw [hpc]; rfl
    have h1 : e.merge dt
        = Epoch.validate ((Epoch.mergeGo dt p ps).map fun q => ⟨q.1, q.2, "None"⟩) := by
      rw [merge_eq, hmerged]
    have hchainIv : List.Chain' Iv.le
        ((Epoch.mergeGo dt p ps).map fun q => ⟨q.1, q.2, "None"⟩) :=
      (List.chain'_map _).mpr hsorted
    have hvalid : Epoch.validate ((Epoch.mergeGo dt p ps).map fun q => ⟨q.1, q.2, "None"⟩)
        = ⟨(Epoch.mergeGo dt p ps).map fun q => ⟨q.1, q.2, "None"⟩⟩ := by
      unfold Epoch.validate
      rw [List.Sorted.insertionSort_eq (List.chain'_iff_pairwise.mp hchainIv)]
    have hmm : (((Epoch.mergeGo dt p ps).map fun q => (⟨q.1, q.2, "None"⟩ : Iv)).map
        fun iv => (iv.start, iv.stop)) = Epoch.mergeGo dt p ps := by
      rw [List.map_map]
      exact List.map_id _
    obtain ⟨m, ms, hcons⟩ : ∃ m ms, Epoch.mergeGo dt p ps = m :: ms := by
      cases hmc : Epoch.mergeGo dt p ps with
      | nil => exact absurd hmc (mergeGo_ne_nil dt ps p)
      | cons m ms => exact ⟨m, ms, rfl⟩
    have hnomerge : Epoch.mergeList dt (Epoch.mergeGo dt p ps) = Epoch.mergeGo dt p ps := by
      rw [hcons]
      exact mergeGo_no_merge dt ms m (hcons ▸ hgaps)
    calc (e.merge dt).merge dt
        = Epoch.validate ((Epoch.mergeList dt (((Epoch.mergeGo dt p ps).map
            fun q => (⟨q.1, q.2, "None"⟩ : Iv)).map fun iv => (iv.start, iv.stop))).map
              fun q => ⟨q.1, q.2, "None"⟩) := by
          rw [h1, hvalid, merge_eq]
      _ = e.merge dt := by rw [hmm, hnomerge, ← h1]

/-- Claim C6 (witness): a concrete sorted three-interval set on which
one `merge(2)` is already a fixed point of a second `merge(2)`. -/
theorem C6_witness :
    ((Epoch.from_array [0, 4, 10] [2, 5, 12] .none).merge 2).merge 2
      = (Epoch.from_array [0, 4, 10] [2, 5, 12] .none).merge 2 :=
  C6_merge_idempotent _ 2 (by decide)

theorem eq_replicate_of_forall {α : Type} :
    ∀ (l : List α) (a : α), (∀ b ∈ l, b = a) → l = List.replicate l.length a
  | [], _, _ => rfl
  | x :: l, a, h => by
    rw [List.length_cons, List.replicate_succ, h x (List.mem_cons_self x l)]
    exact congrArg (a :: ·)
      (eq_replicate_of_forall l a fun b hb => h b (List.mem_cons_of_mem x hb))

/-- Claim C10 (confirmed): `merge` rebuilds its result through
`from_array` with no labels argument, so every interval of
`S.merge(dt)` — merged or not — carries the label string `"None"`
(pandas broadcasts `None` and `_validate` renders it via
`astype(str)`); the input's labels are not preserved. -/
theorem C10_merge_drops_labels (e : Epoch) (dt : ℚ) :
    (e.merge dt).labels = List.replicate (e.merge dt).n_epochs "None" := by
  have h1 : ∀ s ∈ (e.merge dt).labels, s = "None" := by
    intro s hs
    obtain ⟨iv, hiv, hlab⟩ := List.mem_map.mp hs
    have he : (e.merge dt).epochs
        = List.insertionSort Iv.le
            ((Epoch.mergeList dt (e.epochs.map fun x => (x.start, x.stop))).map
              fun q => (⟨q.1, q.2, "None"⟩ : Iv)) := by
      rw [merge_eq]
      rfl
    rw [he] at hiv
    have hiv' := (List.perm_insertionSort Iv.le _).mem_iff.mp hiv
    obtain ⟨q, _, hqe⟩ := List.mem_map.mp hiv'
    rw [← hqe] at hlab
    exact hlab.symm
  have h2 : (e.merge dt).labels.length = (e.merge dt).n_epochs := by
    simp [Epoch.labels, Epoch.n_epochs, Epoch.starts]
  rw [← h2]
  exact eq_replicate_of_forall _ _ h1

theorem stops_from_array_subset (A B : List ℚ) (lab : NpLabels) :
    ∀ q ∈ (Epoch.from_array A B lab).stops, q ∈ B := by
  intro q hq
  obtain ⟨iv, hiv, hqe⟩ := List.mem_map.mp hq
  have hiv2 : iv ∈ List.insertionSort Iv.le (mkIvs A B (labelsColumn lab A.length)) := hiv
  have hiv' := (List.perm_insertionSort Iv.le _).mem_iff.mp hiv2
  exact hqe ▸ mem_mkIvs_stop hiv'

/-- Claim C3 (amended): `from_boolean_array([F,T,T,F,T], t=[0,1,2,3,4])`
yields exactly `(1,3,"high")` and `(4,4,"high")` — a run's trailing edge
is the index/time of the first `False` after it — and, in general, every
stop the constructor produces in index mode is clamped to at most
`len(arr) - 1`, never overrunning the input length. -/
theorem C3_boolean_signal :
    (Epoch.from_boolean_array [false, true, true, false, true]
        (some [0, 1, 2, 3, 4])).epochs
      = [⟨1, 3, "high"⟩, ⟨4, 4, "high"⟩]
    ∧ ∀ (arr : List Bool), ∀ q ∈ (Epoch.from_boolean_array arr none).stops,
        q ≤ ((arr.length - 1 : ℕ) : ℚ) := by
  constructor
  · decide
  · intro arr q hq
    obtain ⟨i, hi, hiq⟩ := List.mem_map.mp (stops_from_array_subset _ _ _ q hq)
    obtain ⟨s0, hs0, his⟩ := List.mem_map.mp hi
    have hs0r := List.mem_range.mp (List.mem_filter.mp hs0).1
    have hL : s0 ≤ arr.length := by
      simp only [List.length_zipWith, List.length_append, List.length_map, List.length_tail,
        List.length_cons, List.length_nil] at hs0r
      omega
    have hle : i ≤ arr.length - 1 := by
      rw [← his]
      by_cases hc : s0 = arr.length
      · simp [hc]
      · rw [if_neg hc]
        omega
    rw [← hiq]
    exact Nat.cast_le.mpr hle

/-- Claim C3 (witness): on the one-sample signal `[T]`, the produced
stop `0` is clamped to the last valid index `0 = len - 1`. -/
theorem C3_boolean_signal_witness :
    (0 : ℚ) ≤ (([true].length - 1 : ℕ) : ℚ) :=
  C3_boolean_signal.2 [true] 0 (by decide)

/-! Characterizations of the three `fill_blank` loops. -/

theorem le_last (f : ℕ → ℚ) (n : ℕ) (hstep : ∀ k, k + 1 < n → f k ≤ f (k + 1)) :
    ∀ k, k < n → f k ≤ f (n - 1) := by
  intro k hk
  have h := le_of_adjacent_steps f (n - 1 - k) k fun j hj hj2 => hstep j (by omega)
  have he : k + (n - 1 - k) = n - 1 := by omega
  rwa [he] at h

theorem fillLeftLoop_length : ∀ (inds : List ℕ) (s d : List ℚ),
    (fillLeftLoop inds s d).length = d.length
  | [], _, _ => rfl
  | ind :: rest, s, d => by
    rw [fillLeftLoop, fillLeftLoop_length rest s _, List.length_set]

theorem fillLeftLoop_getD : ∀ (inds : List ℕ) (s d : List ℚ),
    (∀ i ∈ inds, i < d.length) → ∀ k,
      (fillLeftLoop inds s d).getD k 0
        = if k ∈ inds then s.getD (k + 1) 0 - s.getD k 0 else d.getD k 0
  | [], _, _, _, k => by simp [fillLeftLoop]
  | ind :: rest, s, d, hb, k => by
    rw [fillLeftLoop]
    have hb' : ∀ i ∈ rest, i < (d.set ind (s.getD (ind + 1) 0 - s.getD ind 0)).length := by
      intro i hi
      rw [List.length_set]
      exact hb i (List.mem_cons_of_mem ind hi)
    rw [fillLeftLoop_getD rest s _ hb' k]
    by_cases hkr : k ∈ rest
    · rw [if_pos hkr, if_pos (List.mem_cons_of_mem ind hkr)]
    · rw [if_neg hkr]
      by_cases hk : k = ind
      · subst hk
        rw [getD_set_self d k _ 0 (hb k (List.mem_cons_self k rest)),
          if_pos (List.mem_cons_self k rest)]
      · rw [getD_set_ne d _ 0 (Ne.symm hk),
          if_neg (by simp [List.mem_cons, hk, hkr])]

theorem fillRightLoop_spec : ∀ (inds : List ℕ) (s d : List ℚ),
    List.Pairwise (· < ·) inds →
    (∀ i ∈ inds, i + 1 < s.length) →
    d.length = s.length →
    (fillRightLoop inds s d).1.length = s.length
    ∧ (fillRightLoop inds s d).2.length = d.length
    ∧ (fillRightLoop inds s d).1.getD 0 0 = s.getD 0 0
    ∧ (∀ k, (fillRightLoop inds s d).1.getD (k + 1) 0
        = if k ∈ inds then s.getD k 0 + d.getD k 0 else s.getD (k + 1) 0)
    ∧ (∀ k, (fillRightLoop inds s d).1.getD k 0 + (fillRightLoop inds s d).2.getD k 0
        = s.getD k 0 + d.getD k 0)
  | [], s, d, _, _, _ =>
    ⟨rfl, rfl, rfl, fun k => by simp [fillRightLoop], fun k => rfl⟩
  | ind :: rest, s, d, hpw, hb, hlen => by
    have hind1 : ind + 1 < s.length := hb ind (List.mem_cons_self ind rest)
    have hind1d : ind + 1 < d.length := by rw [hlen]; exact hind1
    have heq : fillRightLoop (ind :: rest) s d
        = fillRightLoop rest
            (s.set (ind + 1)
              (s.getD (ind + 1) 0 - (s.getD (ind + 1) 0 - (s.getD ind 0 + d.getD ind 0))))
            (d.set (ind + 1)
              (d.getD (ind + 1) 0 + (s.getD (ind + 1) 0 - (s.getD ind 0 + d.getD ind 0)))) := rfl
    rw [heq]
    set s1 := s.set (ind + 1)
      (s.getD (ind + 1) 0 - (s.getD (ind + 1) 0 - (s.getD ind 0 + d.getD ind 0))) with hs1def
    set d1 := d.set (ind + 1)
      (d.getD (ind + 1) 0 + (s.getD (ind + 1) 0 - (s.getD ind 0 + d.getD ind 0))) with hd1def
    have hb' : ∀ i ∈ rest, i + 1 < s1.length := by
      intro i hi
      rw [hs1def, List.length_set]
      exact hb i (List.mem_cons_of_mem ind hi)
    have hlen' : d1.length = s1.length := by
      rw [hs1def, hd1def, List.length_set, List.length_set, hlen]
    obtain ⟨L1, L2, H0, Hsucc, Hsum⟩ :=
      fillRightLoop_spec rest s1 d1 (List.pairwise_cons.mp hpw).2 hb' hlen'
    have hs1v : s1.getD (ind + 1) 0 = s.getD ind 0 + d.getD ind 0 := by
      rw [hs1def, getD_set_self _ _ _ _ hind1]
      ring
    have hd1v : d1.getD (ind + 1) 0
        = d.getD (ind + 1) 0 + (s.getD (ind + 1) 0 - (s.getD ind 0 + d.getD ind 0)) := by
      rw [hd1def]
      exact getD_set_self _ _ _ _ hind1d
    have hs1ne : ∀ k, k ≠ ind + 1 → s1.getD k 0 = s.getD k 0 := by
      intro k hk
      rw [hs1def]
      exact getD_set_ne _ _ _ (Ne.symm hk)
    have hd1ne : ∀ k, k ≠ ind + 1 → d1.getD k 0 = d.getD k 0 := by
      intro k hk
      rw [hd1def]
      exact getD_set_ne _ _ _ (Ne.symm hk)
    have hsum1 : ∀ k, s1.getD k 0 + d1.getD k 0 = s.getD k 0 + d.getD k 0 := by
      intro k
      by_cases hk : k = ind + 1
      · subst hk
        rw [hs1v, hd1v]
        ring
      · rw [hs1ne k hk, hd1ne k hk]
    refine ⟨?_, ?_, ?_, ?_, ?_⟩
    · rw [L1, hs1def, List.length_set]
    · rw [L2, hd1def, List.length_set]
    · rw [H0, hs1ne 0 (by omega)]
    · intro k
      rw [Hsucc k]
      by_cases hkr : k ∈ rest
      · rw [if_pos hkr, if_pos (List.mem_cons_of_mem ind hkr), hsum1 k]
      · rw [if_neg hkr]
        by_cases hk : k = ind
        · subst hk
          rw [hs1v, if_pos (List.mem_cons_self k rest)]
        · rw [hs1ne (k + 1) fun h => hk (Nat.succ_injective h),
            if_neg (by simp [List.mem_cons, hk, hkr])]
    · intro k
      rw [Hsum k, hsum1 k]

theorem fillNearestLoop_spec : ∀ (inds : List ℕ) (s d : List ℚ),
    List.Pairwise (· < ·) inds →
    (∀ i ∈ inds, i + 1 < s.length) →
    d.length = s.length →
    (fillNearestLoop inds s d).1.length = s.length
    ∧ (fillNearestLoop inds s d).2.length = d.length
    ∧ (fillNearestLoop inds s d).1.getD 0 0 = s.getD 0 0
    ∧ (∀ k, (fillNearestLoop inds s d).1.getD (k + 1) 0
        = s.getD (k + 1) 0
          - (if k ∈ inds then (s.getD (k + 1) 0 - (s.getD k 0 + d.getD k 0)) / 2 else 0))
    ∧ (∀ k, (fillNearestLoop inds s d).1.getD k 0 + (fillNearestLoop inds s d).2.getD k 0
        = s.getD k 0 + d.getD k 0
          + (if k ∈ inds then (s.getD (k + 1) 0 - (s.getD k 0 + d.getD k 0)) / 2 else 0))
  | [], s, d, _, _, _ =>
    ⟨rfl, rfl, rfl, fun k => by simp [fillNearestLoop], fun k => by simp [fillNearestLoop]⟩
  | ind :: rest, s, d, hpw, hb, hlen => by
    have hind1 : ind + 1 < s.length := hb ind (List.mem_cons_self ind rest)
    have hind1d : ind + 1 < d.length := by rw [hlen]; exact hind1
    have hindd : ind < d.length := by omega
    have heq : fillNearestLoop (ind :: rest) s d
        = fillNearestLoop rest
            (s.set (ind + 1)
              (s.getD (ind + 1) 0 - (s.getD (ind + 1) 0 - (s.getD ind 0 + d.getD ind 0)) / 2))
            ((d.set ind
                (d.getD ind 0 + (s.getD (ind + 1) 0 - (s.getD ind 0 + d.getD ind 0)) / 2)).set
              (ind + 1)
              ((d.set ind
                  (d.getD ind 0
                    + (s.getD (ind + 1) 0 - (s.getD ind 0 + d.getD ind 0)) / 2)).getD (ind + 1) 0
                + (s.getD (ind + 1) 0 - (s.getD ind 0 + d.getD ind 0)) / 2)) := rfl
    rw [heq]
    set s1 := s.set (ind + 1)
      (s.getD (ind + 1) 0 - (s.getD (ind + 1) 0 - (s.getD ind 0 + d.getD ind 0)) / 2) with hs1def
    set d2 := (d.set ind
        (d.getD ind 0 + (s.getD (ind + 1) 0 - (s.getD ind 0 + d.getD ind 0)) / 2)).set (ind + 1)
      ((d.set ind
          (d.getD ind 0 + (s.getD (ind + 1) 0 - (s.getD ind 0 + d.getD ind 0)) / 2)).getD
          (ind + 1) 0
        + (s.getD (ind + 1) 0 - (s.getD ind 0 + d.getD ind 0)) / 2) with hd2def
    have hb' : ∀ i ∈ rest, i + 1 < s1.length := by
      intro i hi
      rw [hs1def, List.length_set]
      exact hb i (List.mem_cons_of_mem ind hi)
    have hlen' : d2.length = s1.length := by
      rw [hs1def, hd2def, List.length_set, List.length_set, List.length_set, hlen]
    obtain ⟨L1, L2, H0, Hsucc, Hsum⟩ :=
      fillNearestLoop_spec rest s1 d2 (List.pairwise_cons.mp hpw).2 hb' hlen'
    have hs1v : s1.getD (ind + 1) 0
        = s.getD (ind + 1) 0 - (s.getD (ind + 1) 0 - (s.getD ind 0 + d.getD ind 0)) / 2 := by
      rw [hs1def]
      exact getD_set_self _ _ _ _ hind1
    have hs1ne : ∀ k, k ≠ ind + 1 → s1.getD k 0 = s.getD k 0 := by
      intro k hk
      rw [hs1def]
      exact getD_set_ne _ _ _ (Ne.symm hk)
    have hdinner : (d.set ind
        (d.getD ind 0 + (s.getD (ind + 1) 0 - (s.getD ind 0 + d.getD ind 0)) / 2)).getD
          (ind + 1) 0 = d.getD (ind + 1) 0 :=
      getD_set_ne _ _ _ (by omega)
    have hd2ind : d2.getD ind 0
        = d.getD ind 0 + (s.getD (ind + 1) 0 - (s.getD ind 0 + d.getD ind 0)) / 2 := by
      rw [hd2def, getD_set_ne _ _ _ (by omega)]
      exact getD_set_self _ _ _ _ hindd
    have hd2ind1 : d2.getD (ind + 1) 0
        = d.getD (ind + 1) 0 + (s.getD (ind + 1) 0 - (s.getD ind 0 + d.getD ind 0)) / 2 := by
      rw [hd2def, getD_set_self _ _ _ _ (by rw [List.length_set]; exact hind1d), hdinner]
    have hd2ne : ∀ k, k ≠ ind → k ≠ ind + 1 → d2.getD k 0 = d.getD k 0 := by
      intro k hk hk1
      rw [hd2def, getD_set_ne _ _ _ (Ne.symm hk1)]
      exact getD_set_ne _ _ _ (Ne.symm hk)
    have hsum1 : ∀ k, k ≠ ind → s1.getD k 0 + d2.getD k 0 = s.getD k 0 + d.getD k 0 := by
      intro k hk
      by_cases hk1 : k = ind + 1
      · subst hk1
        rw [hs1v, hd2ind1]
        ring
      · rw [hs1ne k hk1, hd2ne k hk hk1]
    have hsum_ind : s1.getD ind 0 + d2.getD ind 0
        = s.getD ind 0 + d.getD ind 0
          + (s.getD (ind + 1) 0 - (s.getD ind 0 + d.getD ind 0)) / 2 := by
      rw [hs1ne ind (by omega), hd2ind]
      ring
    have hg1 : ∀ k ∈ rest,
        s1.getD (k + 1) 0 - (s1.getD k 0 + d2.getD k 0)
          = s.getD (k + 1) 0 - (s.getD k 0 + d.getD k 0) := by
      intro k hk
      have hik : ind < k := (List.pairwise_cons.mp hpw).1 k hk
      rw [hs1ne (k + 1) (by omega), hsum1 k (by omega)]
    refine ⟨?_, ?_, ?_, ?_, ?_⟩
    · rw [L1, hs1def, List.length_set]
    · rw [L2, hd2def, List.length_set, List.length_set]
    · rw [H0, hs1ne 0 (by omega)]
    · intro k
      rw [Hsucc k]
      by_cases hkr : k ∈ rest
      · have hik : ind < k := (List.pairwise_cons.mp hpw).1 k hkr
        rw [if_pos hkr, if_pos (List.mem_cons_of_mem ind hkr), hg1 k hkr,
          hs1ne (k + 1) (by omega)]
      · rw [if_neg hkr]
        by_cases hk : k = ind
        · subst hk
          rw [hs1v, if_pos (List.mem_cons_self k rest)]
          ring
        · rw [hs1ne (k + 1) (by omega), if_neg (by simp [List.mem_cons, hk, hkr])]
    · intro k
      rw [Hsum k]
      by_cases hkr : k ∈ rest
      · have hik : ind < k := (List.pairwise_cons.mp hpw).1 k hkr
        rw [if_pos hkr, if_pos (List.mem_cons_of_mem ind hkr), hg1 k hkr,
          hsum1 k (by omega)]
      · rw [if_neg hkr]
        by_cases hk : k = ind
        · subst hk
          rw [hsum_ind, if_pos (List.mem_cons_self k rest)]
          ring
        · rw [hsum1 k hk, if_neg (by simp [List.mem_cons, hk, hkr])]

theorem getElem_eq_getD {α : Type} (l : List α) (k : ℕ) (h : k < l.length) (d : α) :
    l[k] = l.getD k d := by
  rw [List.getD_eq_getElem?_getD, List.getElem?_eq_getElem h]
  rfl

theorem fill_assemble (e : Epoch) (s2 d2 : List ℚ)
    (h2 : 2 ≤ e.epochs.length)
    (hs2len : s2.length = e.epochs.length)
    (hd2len : d2.length = e.epochs.length)
    (hA1 : ∀ k, k + 1 < e.epochs.length →
      s2.getD k 0 + d2.getD k 0 = s2.getD (k + 1) 0)
    (hA2 : ∀ k, k + 1 < e.epochs.length → s2.getD k 0 ≤ s2.getD (k + 1) 0)
    (hA3 : s2.getD 0 0 = e.starts.getD 0 0)
    (hA4 : s2.getD (e.epochs.length - 1) 0 + d2.getD (e.epochs.length - 1) 0
        = e.stops.getD (e.epochs.length - 1) 0)
    (hA5 : ∀ k, k < e.epochs.length → s2.getD k 0 ≤ s2.getD k 0 + d2.getD k 0)
    (hstarts_sorted : ∀ k, k + 1 < e.epochs.length →
      e.starts.getD k 0 ≤ e.starts.getD (k + 1) 0)
    (hstops_sorted : ∀ k, k + 1 < e.epochs.length →
      e.stops.getD k 0 ≤ e.stops.getD (k + 1) 0) :
    List.Chain' (fun a b : Iv => a.stop = b.start)
        (Epoch.from_array s2 (List.zipWith (fun a b => a + b) s2 d2) (.list e.labels)).epochs
    ∧ (Epoch.from_array s2 (List.zipWith (fun a b => a + b) s2 d2)
        (.list e.labels)).starts.min? = e.starts.min?
    ∧ (Epoch.from_array s2 (List.zipWith (fun a b => a + b) s2 d2)
        (.list e.labels)).stops.max? = e.stops.max? := by
  have hst2len : (List.zipWith (fun a b => a + b) s2 d2).length = e.epochs.length := by
    rw [List.length_zipWith, hs2len, hd2len]
    exact Nat.min_self _
  have hlablen : e.labels.length = e.epochs.length := by
    simp [Epoch.labels]
  have hslen : e.starts.length = e.epochs.length := by simp [Epoch.starts]
  have hstoplen : e.stops.length = e.epochs.length := by simp [Epoch.stops]
  have hfa : (Epoch.from_array s2 (List.zipWith (fun a b => a + b) s2 d2)
        (.list e.labels)).epochs
      = List.insertionSort Iv.le
          (mkIvs s2 (List.zipWith (fun a b => a + b) s2 d2) e.labels) := rfl
  have hLlen : (mkIvs s2 (List.zipWith (fun a b => a + b) s2 d2) e.labels).length
      = e.epochs.length := by
    rw [mkIvs_length, hs2len, hst2len, hlablen]
    simp
  have hLget : ∀ k, k < e.epochs.length →
      (mkIvs s2 (List.zipWith (fun a b => a + b) s2 d2) e.labels).getD k ⟨0, 0, ""⟩
        = ⟨s2.getD k 0, s2.getD k 0 + d2.getD k 0, e.labels.getD k ""⟩ := by
    intro k hk
    rw [mkIvs_getD s2 _ e.labels k (hs2len ▸ hk) (hst2len ▸ hk) (hlablen ▸ hk),
      getD_zipWith _ s2 d2 k 0 (hs2len ▸ hk) (hd2len ▸ hk)]
  have hchainL : List.Chain' Iv.le
      (mkIvs s2 (List.zipWith (fun a b => a + b) s2 d2) e.labels) := by
    rw [List.chain'_iff_get]
    intro i hi
    rw [hLlen] at hi
    have hi1 : i + 1 < e.epochs.length := by omega
    rw [get_eq_getD _ _ _ ⟨0, 0, ""⟩, get_eq_getD _ _ _ ⟨0, 0, ""⟩, hLget i (by omega),
      hLget (i + 1) hi1]
    exact hA2 i hi1
  have hpwL := List.chain'_iff_pairwise.mp hchainL
  have hsort : (Epoch.from_array s2 (List.zipWith (fun a b => a + b) s2 d2)
        (.list e.labels)).epochs
      = mkIvs s2 (List.zipWith (fun a b => a + b) s2 d2) e.labels := by
    rw [hfa]
    exact List.Sorted.insertionSort_eq hpwL
  refine ⟨?_, ?_, ?_⟩
  · rw [hsort, List.chain'_iff_get]
    intro i hi
    rw [hLlen] at hi
    have hi1 : i + 1 < e.epochs.length := by omega
    rw [get_eq_getD _ _ _ ⟨0, 0, ""⟩, get_eq_getD _ _ _ ⟨0, 0, ""⟩, hLget i (by omega),
      hLget (i + 1) hi1]
    exact hA1 i hi1
  · rw [Epoch.starts, hsort]
    have hpwstarts : List.Pairwise (fun a b : ℚ => a ≤ b)
        ((mkIvs s2 (List.zipWith (fun a b => a + b) s2 d2) e.labels).map (·.start)) :=
      List.pairwise_map.mpr hpwL
    have hpwS : List.Pairwise (fun a b : ℚ => a ≤ b) e.starts := by
      apply List.chain'_iff_pairwise.mp
      rw [List.chain'_iff_get]
      intro i hi
      rw [hslen] at hi
      rw [get_eq_getD _ _ _ 0, get_eq_getD _ _ _ 0]
      exact hstarts_sorted i (by omega)
    cases hL : mkIvs s2 (List.zipWith (fun a b => a + b) s2 d2) e.labels with
    | nil =>
      rw [hL] at hLlen
      simp at hLlen
      omega
    | cons iv0 rest =>
      have hiv0 : iv0.start = s2.getD 0 0 := by
        have h0 := hLget 0 (by omega)
        rw [hL, List.getD_cons_zero] at h0
        rw [h0]
      rw [hL] at hpwstarts
      rw [List.map_cons] at hpwstarts ⊢
      rw [min?_eq_head_of_sorted _ _ hpwstarts, hiv0, hA3]
      cases hS : e.starts with
      | nil =>
        rw [hS] at hslen
        simp at hslen
        omega
      | cons x xs =>
        rw [hS] at hpwS
        rw [List.getD_cons_zero, min?_eq_head_of_sorted _ _ hpwS]
  · rw [Epoch.stops, hsort]
    have hE2step : ∀ k, k + 1 < e.epochs.length →
        s2.getD k 0 + d2.getD k 0 ≤ s2.getD (k + 1) 0 + d2.getD (k + 1) 0 := by
      intro k hk
      rw [hA1 k hk]
      exact hA5 (k + 1) hk
    have hub : ∀ y ∈ (mkIvs s2 (List.zipWith (fun a b => a + b) s2 d2) e.labels).map
        (·.stop), y ≤ s2.getD (e.epochs.length - 1) 0 + d2.getD (e.epochs.length - 1) 0 := by
      intro y hy
      obtain ⟨iv, hivL, hivy⟩ := List.mem_map.mp hy
      obtain ⟨k, hk, hkiv⟩ := List.mem_iff_getElem.mp hivL
      have hkn : k < e.epochs.length := by rw [hLlen] at hk; omega
      rw [getElem_eq_getD _ _ hk ⟨0, 0, ""⟩, hLget k hkn] at hkiv
      rw [← hivy, ← hkiv]
      exact le_last (fun j => s2.getD j 0 + d2.getD j 0) e.epochs.length hE2step k hkn
    have hmem : s2.getD (e.epochs.length - 1) 0 + d2.getD (e.epochs.length - 1) 0
        ∈ (mkIvs s2 (List.zipWith (fun a b => a + b) s2 d2) e.labels).map (·.stop) := by
      have hm := List.mem_map_of_mem (·.stop)
        (getD_mem (mkIvs s2 (List.zipWith (fun a b => a + b) s2 d2) e.labels)
          (e.epochs.length - 1) ⟨0, 0, ""⟩ (by rw [hLlen]; omega))
      rw [hLget (e.epochs.length - 1) (by omega)] at hm
      exact hm
    rw [max?_eq_of_mem_ub _ _ hmem hub, hA4]
    have hub' : ∀ y ∈ e.stops, y ≤ e.stops.getD (e.epochs.length - 1) 0 := by
      intro y hy
      obtain ⟨k, hk, hky⟩ := List.mem_iff_getElem.mp hy
      rw [getElem_eq_getD _ _ hk 0] at hky
      rw [← hky]
      exact le_last (fun j => e.stops.getD j 0) e.epochs.length
        (fun j hj => hstops_sorted j hj) k (by rw [hstoplen] at hk; omega)
    have hmem' : e.stops.getD (e.epochs.length - 1) 0 ∈ e.stops :=
      getD_mem _ _ _ (by rw [hstoplen]; omega)
    rw [max?_eq_of_mem_ub _ _ hmem' hub']

/-- Claim C5 (amended): for every IntervalSet with at least two
intervals whose intervals are proper (`start ≤ stop`) and
non-overlapping (each stop at most the next start — the data-model
invariants the counterexample shows are needed), each `fill_blank`
method closes every gap (`stop[i] = start[i+1]` for all adjacent pairs)
and preserves the minimum start and maximum stop of the set. -/
theorem C5_fill_blank_amended (e : Epoch) (m : FillMethod)
    (h2 : 2 ≤ e.n_epochs)
    (hp : ∀ iv ∈ e.epochs, iv.start ≤ iv.stop)
    (hno : List.Chain' (fun a b : Iv => a.stop ≤ b.start) e.epochs) :
    List.Chain' (fun a b : Iv => a.stop = b.start) (e.fill_blank m).epochs
    ∧ (e.fill_blank m).starts.min? = e.starts.min?
    ∧ (e.fill_blank m).stops.max? = e.stops.max? := by
  have hslen : e.starts.length = e.epochs.length := by simp [Epoch.starts]
  have hstoplen : e.stops.length = e.epochs.length := by simp [Epoch.stops]
  have hdlen : e.durations.length = e.starts.length := by
    simp [Epoch.durations, List.length_zipWith, hstoplen, hslen, Epoch.starts, Epoch.stops]
  have hn2 : 2 ≤ e.epochs.length := by
    rw [← hslen]
    exact h2
  have hstart_eq : ∀ k, k < e.epochs.length →
      e.starts.getD k 0 = (e.epochs.getD k ⟨0, 0, ""⟩).start := by
    intro k hk
    exact getD_map_lt _ e.epochs k ⟨0, 0, ""⟩ 0 hk
  have hstop_eq : ∀ k, k < e.epochs.length →
      e.stops.getD k 0 = (e.epochs.getD k ⟨0, 0, ""⟩).stop := by
    intro k hk
    exact getD_map_lt _ e.epochs k ⟨0, 0, ""⟩ 0 hk
  have hD : ∀ k, k < e.epochs.length →
      e.durations.getD k 0 = e.stops.getD k 0 - e.starts.getD k 0 := by
    intro k hk
    exact getD_zipWith _ e.stops e.starts k 0 (by rw [hstoplen]; exact hk)
      (by rw [hslen]; exact hk)
  have hps : ∀ k, k < e.epochs.length → e.starts.getD k 0 ≤ e.stops.getD k 0 := by
    intro k hk
    rw [hstart_eq k hk, hstop_eq k hk]
    exact hp _ (getD_mem e.epochs k ⟨0, 0, ""⟩ hk)
  have hnos : ∀ k, k + 1 < e.epochs.length →
      e.stops.getD k 0 ≤ e.starts.getD (k + 1) 0 := by
    intro k hk
    have hc := List.chain'_iff_get.mp hno k (by omega)
    rw [get_eq_getD _ _ _ ⟨0, 0, ""⟩, get_eq_getD _ _ _ ⟨0, 0, ""⟩] at hc
    rw [hstop_eq k (by omega), hstart_eq (k + 1) hk]
    exact hc
  have hstarts_sorted : ∀ k, k + 1 < e.epochs.length →
      e.starts.getD k 0 ≤ e.starts.getD (k + 1) 0 :=
    fun k hk => le_trans (hps k (by omega)) (hnos k hk)
  have hstops_sorted : ∀ k, k + 1 < e.epochs.length →
      e.stops.getD k 0 ≤ e.stops.getD (k + 1) 0 :=
    fun k hk => le_trans (hnos k hk) (hps (k + 1) hk)
  set inds := (List.range (e.n_epochs - 1)).filter fun i =>
    decide (e.starts.getD i 0 + e.durations.getD i 0 < e.starts.getD (i + 1) 0)
    with hindsdef
  have hindm : ∀ k, k ∈ inds ↔ k < e.epochs.length - 1
      ∧ e.starts.getD k 0 + e.durations.getD k 0 < e.starts.getD (k + 1) 0 := by
    intro k
    rw [hindsdef]
    simp [List.mem_filter, List.mem_range, Epoch.n_epochs, hslen, Epoch.starts]
  have hindpw : List.Pairwise (· < ·) inds := by
    rw [hindsdef]
    exact List.Pairwise.filter _ (List.pairwise_lt_range _)
  have hindb : ∀ i ∈ inds, i + 1 < e.starts.length := by
    intro i hi
    have h1 := ((hindm i).mp hi).1
    omega
  have hindbd : ∀ i ∈ inds, i < e.durations.length := by
    intro i hi
    have h1 := ((hindm i).mp hi).1
    rw [hdlen, hslen]
    omega
  have hlast_notin : (e.epochs.length - 1) ∉ inds := by
    intro hmem
    have := ((hindm _).mp hmem).1
    omega
  have hclosed : ∀ k, k + 1 < e.epochs.length → k ∉ inds →
      e.starts.getD k 0 + e.durations.getD k 0 = e.starts.getD (k + 1) 0 := by
    intro k hk hkI
    have hge : e.starts.getD (k + 1) 0 ≤ e.starts.getD k 0 + e.durations.getD k 0 := by
      by_contra hlt
      exact hkI ((hindm k).mpr ⟨by omega, lt_of_not_le hlt⟩)
    have hle : e.starts.getD k 0 + e.durations.getD k 0 ≤ e.starts.getD (k + 1) 0 := by
      rw [hD k (by omega)]
      have := hnos k hk
      linarith
    linarith
  cases m with
  | from_left =>
    have hfb : e.fill_blank .from_left
        = Epoch.from_array e.starts
            (List.zipWith (fun a b => a + b) e.starts
              (fillLeftLoop inds e.starts e.durations))
            (.list e.labels) := rfl
    rw [hfb]
    refine fill_assemble e e.starts (fillLeftLoop inds e.starts e.durations) hn2 hslen
      (by rw [fillLeftLoop_length, hdlen, hslen]) ?_ hstarts_sorted rfl ?_ ?_
      hstarts_sorted hstops_sorted
    · intro k hk
      rw [fillLeftLoop_getD inds e.starts e.durations hindbd k]
      by_cases hkI : k ∈ inds
      · rw [if_pos hkI]
        ring
      · rw [if_neg hkI]
        exact hclosed k hk hkI
    · rw [fillLeftLoop_getD inds e.starts e.durations hindbd, if_neg hlast_notin,
        hD _ (by omega)]
      ring
    · intro k hk
      rw [fillLeftLoop_getD inds e.starts e.durations hindbd]
      by_cases hkI : k ∈ inds
      · rw [if_pos hkI]
        have hkn := ((hindm k).mp hkI).1
        have := hstarts_sorted k (by omega)
        linarith
      · rw [if_neg hkI, hD k hk]
        have := hps k hk
        linarith
  | from_right =>
    have hfb : e.fill_blank .from_right
        = Epoch.from_array (fillRightLoop inds e.starts e.durations).1
            (List.zipWith (fun a b => a + b) (fillRightLoop inds e.starts e.durations).1
              (fillRightLoop inds e.starts e.durations).2)
            (.list e.labels) := rfl
    rw [hfb]
    obtain ⟨R1, R2, R0, Rsucc, Rsum⟩ :=
      fillRightLoop_spec inds e.starts e.durations hindpw hindb (by rw [hdlen])
    have hS2le : ∀ k, k < e.epochs.length →
        (fillRightLoop inds e.starts e.durations).1.getD k 0 ≤ e.stops.getD k 0 := by
      intro k hk
      cases k with
      | zero =>
        rw [R0]
        exact hps 0 (by omega)
      | succ j =>
        rw [Rsucc j]
        by_cases hjI : j ∈ inds
        · have hjn := ((hindm j).mp hjI).1
          rw [if_pos hjI, hD j (by omega)]
          have h1 := hnos j (by omega)
          have h2 := hps (j + 1) hk
          linarith
        · rw [if_neg hjI]
          exact hps (j + 1) hk
    refine fill_assemble e _ _ hn2 (by rw [R1, hslen]) (by rw [R2, hdlen, hslen]) ?_ ?_
      (by rw [R0]) ?_ ?_ hstarts_sorted hstops_sorted
    · intro k hk
      rw [Rsum k, Rsucc k]
      by_cases hkI : k ∈ inds
      · rw [if_pos hkI]
      · rw [if_neg hkI]
        exact hclosed k hk hkI
    · intro k hk
      rw [Rsucc k]
      by_cases hkI : k ∈ inds
      · rw [if_pos hkI]
        have h1 := hS2le k (by omega)
        rw [hD k (by omega)]
        linarith
      · rw [if_neg hkI]
        have h1 := hS2le k (by omega)
        have h2 := hnos k hk
        linarith
    · rw [Rsum _, hD _ (by omega)]
      ring
    · intro k hk
      have h1 := hS2le k hk
      have h2 := Rsum k
      rw [hD k hk] at h2
      linarith
  | from_nearest =>
    have hfb : e.fill_blank .from_nearest
        = Epoch.from_array (fillNearestLoop inds e.starts e.durations).1
            (List.zipWith (fun a b => a + b) (fillNearestLoop inds e.starts e.durations).1
              (fillNearestLoop inds e.starts e.durations).2)
            (.list e.labels) := rfl
    rw [hfb]
    obtain ⟨N1, N2, N0, Nsucc, Nsum⟩ :=
      fillNearestLoop_spec inds e.starts e.durations hindpw hindb (by rw [hdlen])
    have hgpos : ∀ k ∈ inds,
        0 ≤ e.starts.getD (k + 1) 0 - (e.starts.getD k 0 + e.durations.getD k 0) := by
      intro k hk
      have := ((hindm k).mp hk).2
      linarith
    have hS2leS : ∀ k, (fillNearestLoop inds e.starts e.durations).1.getD k 0
        ≤ e.starts.getD k 0 := by
      intro k
      cases k with
      | zero =>
        rw [N0]
      | succ j =>
        rw [Nsucc j]
        by_cases hjI : j ∈ inds
        · rw [if_pos hjI]
          have := hgpos j hjI
          linarith
        · rw [if_neg hjI]
          linarith
    have hlow : ∀ k, k + 1 < e.epochs.length →
        e.stops.getD k 0 ≤ (fillNearestLoop inds e.starts e.durations).1.getD (k + 1) 0 := by
      intro k hk
      rw [Nsucc k]
      by_cases hkI : k ∈ inds
      · rw [if_pos hkI, hD k (by omega)]
        have := hnos k hk
        linarith
      · rw [if_neg hkI]
        have := hnos k hk
        linarith
    refine fill_assemble e _ _ hn2 (by rw [N1, hslen]) (by rw [N2, hdlen, hslen]) ?_ ?_
      (by rw [N0]) ?_ ?_ hstarts_sorted hstops_sorted
    · intro k hk
      rw [Nsum k, Nsucc k]
      by_cases hkI : k ∈ inds
      · rw [if_pos hkI]
        ring
      · rw [if_neg hkI]
        have := hclosed k hk hkI
        linarith
    · intro k hk
      have h1 := hS2leS k
      have h2 := hps k (by omega)
      have h3 := hlow k hk
      linarith
    · rw [Nsum _, if_neg hlast_notin, hD _ (by omega)]
      ring
    · intro k hk
      have h1 := hS2leS k
      have h2 := Nsum k
      have h3 := hps k hk
      rw [hD k hk] at h2
      by_cases hkI : k ∈ inds
      · rw [if_pos hkI] at h2
        have h4 := hgpos k hkI
        rw [hD k hk] at h4
        linarith
      · rw [if_neg hkI] at h2
        linarith

/-- Claim C5 (witness): the proper, non-overlapping two-interval set
`[(0,1),(2,5)]` has its gap closed by `fill_blank("from_left")` with
min start and max stop unchanged. -/
theorem C5_witness :
    List.Chain' (fun a b : Iv => a.stop = b.start)
        ((Epoch.from_array [0, 2] [1, 5] .none).fill_blank .from_left).epochs
    ∧ ((Epoch.from_array [0, 2] [1, 5] .none).fill_blank .from_left).starts.min?
        = (Epoch.from_array [0, 2] [1, 5] .none).starts.min?
    ∧ ((Epoch.from_array [0, 2] [1, 5] .none).fill_blank .from_left).stops.max?
        = (Epoch.from_array [0, 2] [1, 5] .none).stops.max? :=
  C5_fill_blank_amended _ .from_left (by decide) (by decide)
    (by norm_num [Epoch.from_array, Epoch.validate, mkIvs, labelsColumn,
      List.insertionSort, List.orderedInsert, Iv.le, List.chain'_cons])
